import Mathlib

/-!
Verification of the ignore-pattern resolution and file enumeration/ordering
core of `code-to-prompt` (src/code_to_prompt/filesystem.py,
src/code_to_prompt/formatters.py, src/code_to_prompt/cli.py).

Paths are modelled as lists of components relative to the scan root (the
scan root itself is `[]`).  A directory tree is the inductive `FsEntry`.
The gitignore `PathSpec` matcher built by the `pathspec` library is an
external collaborator of the source; where a claim quantifies over pattern
sets it is modelled as an opaque predicate `Matcher` on the relative,
forward-slash path string, exactly the input `should_ignore` feeds it.
-/

/-- A filesystem entry: a regular file or a directory with children.
File contents are irrelevant to enumeration/ordering and are modelled
separately for the content-loading claims. -/
inductive FsEntry where
  | file (name : String)
  | dir (name : String) (children : List FsEntry)

/-- The entry's basename (`Path.name`). -/
def FsEntry.name : FsEntry → String
  | .file n => n
  | .dir n _ => n

/-- `Path.is_file()` for an entry known to exist. -/
def FsEntry.isFile : FsEntry → Bool
  | .file _ => true
  | .dir _ _ => false

/-- `path.relative_to(base)`: `some` of the remaining components when
`base` is a prefix of `path`, `none` when Python would raise `ValueError`. -/
def relativeTo (path base : List String) : Option (List String) :=
  if base <+: path then some (path.drop base.length) else none

/-- `str(path.relative_to(base))` with forward slashes: components joined
by `/` (Python renders the empty relative path as `"."`). -/
def pathStr (parts : List String) : String :=
  if parts = [] then "." else String.intercalate "/" parts

/-- A compiled `PathSpec` matcher, as consumed by `should_ignore`: a pure
predicate on the scan-root-relative, `/`-separated path string. -/
abbrev Matcher := String → Bool

/-- filesystem.py `should_ignore(path, base_dir, gitignore_spec)`:
unconditionally true when `.git` is among the components of the path made
relative to `base_dir`; otherwise the matcher's verdict on the relative
path string; `false` when there is no matcher or the path is not under
`base_dir` (the source's `except ValueError` branches). -/
def should_ignore (path base : List String) (spec : Option Matcher) : Bool :=
  (match relativeTo path base with
   | some parts => decide (".git" ∈ parts)
   | none => false) ||
  (match spec with
   | none => false
   | some m =>
     match relativeTo path base with
     | some parts => m (pathStr parts)
     | none => false)

mutual

/-- All file paths below a prefix, one entry: pre-order enumeration of the
regular files in the subtree (models the `item.is_file()` filter over
`directory.rglob("*")`; only membership in this list is relied upon, the
exact interleaving of `rglob` is not). -/
def entryFiles (pre : List String) : FsEntry → List (List String)
  | .file n => [pre ++ [n]]
  | .dir n cs => entriesFiles (pre ++ [n]) cs

/-- All file paths below a prefix, list of entries. -/
def entriesFiles (pre : List String) : List FsEntry → List (List String)
  | [] => []
  | e :: es => entryFiles pre e ++ entriesFiles pre es

end

/-- filesystem.py `get_files_recursively(directory, gitignore_spec)`: every
regular file in the tree whose path does not satisfy `should_ignore`
relative to the scan root. -/
def get_files_recursively (root : List FsEntry) (spec : Option Matcher) :
    List (List String) :=
  (entriesFiles [] root).filter (fun p => !should_ignore p [] spec)

example :
    get_files_recursively [.dir "a" [.file "b.txt"], .file "c.txt"] none =
      [["a", "b.txt"], ["c.txt"]] := by decide

example :
    should_ignore ["x", ".git", "HEAD"] [] none = true := by decide

/-! ### Ordering: the Python comparisons used by `sorted` -/

/-- ASCII lowercasing of one character (`A`-`Z` to `a`-`z`). -/
def lowerChar (c : Char) : Char :=
  if 65 ≤ c.toNat ∧ c.toNat ≤ 90 then Char.ofNat (c.toNat + 32) else c

/-- Python `str.lower()`: lowercase each character.  Python applies full
Unicode lowercasing; the model lowercases the ASCII letters, which
coincides with Python on ASCII names. -/
def pyLower (s : String) : String := String.mk (s.data.map lowerChar)

/-- Strict Python comparison of two `(bool, str)` tuples: `False < True`,
strings by code point. -/
def pairLT (a b : Bool × String) : Bool :=
  (!a.1 && b.1) || (a.1 == b.1 && decide (a.2 < b.2))

/-- Non-strict Python comparison of two `(bool, str)` tuples. -/
def pairLE (a b : Bool × String) : Bool := pairLT a b || a == b

/-- The per-child sort key `(p.is_file(), p.name.lower())` used by
`generate_directory_tree` (formatters.py line 88). -/
def childKey (e : FsEntry) : Bool × String := (e.isFile, pyLower e.name)

/-- Comparison of children by `childKey`. -/
def childLE (a b : FsEntry) : Bool := pairLE (childKey a) (childKey b)

/-- `sorted(directory.iterdir(), key=lambda p: (p.is_file(), p.name.lower()))`.
Python's `sorted` is the stable sort for this key; `List.insertionSort` is
stable, so it is the same function on every input. -/
def sortedChildren (cs : List FsEntry) : List FsEntry :=
  List.insertionSort (fun a b => childLE a b = true) cs

/-- Resolve a root-relative component path to its entry, `none` when no
such entry exists (first match wins among duplicate sibling names, as one
path names at most one filesystem object). -/
def findEntry : List FsEntry → List String → Option FsEntry
  | _, [] => none
  | cs, [n] => cs.find? (fun e => e.name == n)
  | cs, n :: rest =>
    match cs.find? (fun e => e.name == n) with
    | some (.dir _ cs2) => findEntry cs2 rest
    | _ => none

/-- `(base_dir / part₁ / ... / partₖ).is_file()`: `false` for directories
and for paths that do not exist. -/
def isFileAt (root : List FsEntry) (parts : List String) : Bool :=
  match findEntry root parts with
  | some e => e.isFile
  | none => false

/-- Recursion for `get_path_sort_key`: one `(is_file, lowercase name)`
pair per component, where `is_file` is asked of the path from the root
down to that component.  The source builds the pairs for `parts[:-1]`
from the growing `current_path` and then appends the pair for the final
component from the full path; both steps compute exactly
`(isFileAt root (done ++ [p]), pyLower p)`, so one uniform recursion
covers them. -/
def get_path_sort_key_go (root : List FsEntry) (done : List String) :
    List String → List (Bool × String)
  | [] => []
  | p :: rest =>
    (isFileAt root (done ++ [p]), pyLower p) ::
      get_path_sort_key_go root (done ++ [p]) rest

/-- formatters.py `get_path_sort_key(path, base_dir)`, on the components
of `path.relative_to(base_dir)`. -/
def get_path_sort_key (root : List FsEntry) (relParts : List String) :
    List (Bool × String) :=
  get_path_sort_key_go root [] relParts

/-- Strict Python comparison of two lists of `(bool, str)` tuples
(lexicographic; a strict prefix is smaller). -/
def keyLT : List (Bool × String) → List (Bool × String) → Bool
  | [], [] => false
  | [], _ :: _ => true
  | _ :: _, [] => false
  | a :: xs, b :: ys => pairLT a b || (a == b && keyLT xs ys)

/-- Non-strict Python comparison of two lists of `(bool, str)` tuples. -/
def keyLE (k1 k2 : List (Bool × String)) : Bool := keyLT k1 k2 || k1 == k2

/-- formatters.py `sort_files(files, base_dir)`:
`sorted(files, key=lambda p: get_path_sort_key(p, base_dir))`.  Python's
`sorted` is the stable sort for the key order, modelled by the stable
`List.insertionSort`. -/
def sort_files (root : List FsEntry) (files : List (List String)) :
    List (List String) :=
  List.insertionSort
    (fun p q => keyLE (get_path_sort_key root p) (get_path_sort_key root q) = true)
    files

example :
    get_path_sort_key [.dir "src" [.file "file.py"]] ["src", "file.py"] =
      [(false, "src"), (true, "file.py")] := by decide

example :
    sort_files [.dir "b" [.file "z"], .file "a.txt"]
      [["a.txt"], ["b", "z"]] = [["b", "z"], ["a.txt"]] := by decide

/-! ### The tree renderer -/

/-- Python `"\n".join(items)`. -/
def joinNL : List String → String
  | [] => ""
  | [s] => s
  | s :: rest => s ++ "\n" ++ joinNL rest

theorem perm_sizeOf_eq {l1 l2 : List FsEntry} (h : l1.Perm l2) :
    sizeOf l1 = sizeOf l2 := by
  induction h with
  | nil => rfl
  | cons x _ ih => simp [ih]
  | swap x y l => simp; omega
  | trans _ _ ih1 ih2 => omega

theorem sizeOf_sortedChildren (cs : List FsEntry) :
    sizeOf (sortedChildren cs) = sizeOf cs :=
  perm_sizeOf_eq (List.perm_insertionSort _ cs)

/-- The `tree` item list built by formatters.py `generate_directory_tree`
while looping over the already sorted `contents` (the argument of this
function): one head-line item per non-ignored child, followed, for a
directory child whose rendered subtree is a non-empty string, by that
whole subtree string as a single (multi-line) item.  The source's
`is_last = (i == len(contents) - 1)` is `rest.isEmpty` here. -/
def genTreeList (dirPath : List String) (spec : Option Matcher) (pref : String) :
    List FsEntry → List String
  | [] => []
  | e :: rest =>
    (if should_ignore (dirPath ++ [e.name]) dirPath spec then []
     else
       (pref ++ (if rest.isEmpty then "└── " else "├── ") ++ e.name) ::
       (match e with
        | .file _ => []
        | .dir nm cs =>
          let subtree :=
            joinNL (genTreeList (dirPath ++ [nm]) spec
              (pref ++ (if rest.isEmpty then "    " else "│   "))
              (sortedChildren cs))
          if subtree = "" then [] else [subtree])) ++
    genTreeList dirPath spec pref rest
termination_by l => sizeOf l
decreasing_by
  all_goals simp_all [sizeOf_sortedChildren]
  all_goals omega

/-- formatters.py `generate_directory_tree(directory, gitignore_spec, prefix)`
for the directory at `dirPath` with children `children`:
`"\n".join(tree)` over the sorted children. -/
def generate_directory_tree (dirPath : List String) (children : List FsEntry)
    (spec : Option Matcher) (pref : String) : String :=
  joinNL (genTreeList dirPath spec pref (sortedChildren children))

/-- The rendered entries of the tree, flattened: for each rendered
filesystem object, its root-relative path, its single line of tree text,
and whether it is a regular file — in the order the lines appear in the
rendered text (the bridge to `generate_directory_tree` is proved below). -/
def treeEntries (dirPath : List String) (spec : Option Matcher) (pref : String) :
    List FsEntry → List (List String × String × Bool)
  | [] => []
  | e :: rest =>
    (if should_ignore (dirPath ++ [e.name]) dirPath spec then []
     else
       (dirPath ++ [e.name],
        pref ++ (if rest.isEmpty then "└── " else "├── ") ++ e.name,
        e.isFile) ::
       (match e with
        | .file _ => []
        | .dir nm cs =>
          treeEntries (dirPath ++ [nm]) spec
            (pref ++ (if rest.isEmpty then "    " else "│   "))
            (sortedChildren cs))) ++
    treeEntries dirPath spec pref rest
termination_by l => sizeOf l
decreasing_by
  all_goals simp_all [sizeOf_sortedChildren]
  all_goals omega

example :
    generate_directory_tree [] [.file "a.txt", .dir "src" [.file "m.py"]]
      none "" = "├── src\n│   └── m.py\n└── a.txt" := by
  simp +decide [generate_directory_tree, genTreeList, sortedChildren, joinNL]

/-! ### Bridge: the rendered text is exactly the `treeEntries` lines -/

/-- The rendered line of one tree entry. -/
def entryLine (t : List String × String × Bool) : String := t.2.1

theorem joinNL_cons (x : String) (xs : List String) :
    joinNL (x :: xs) = if xs = [] then x else x ++ "\n" ++ joinNL xs := by
  cases xs <;> simp [joinNL]

theorem length_joinNL_cons_ge (x : String) (xs : List String) :
    x.length ≤ (joinNL (x :: xs)).length := by
  rw [joinNL_cons]
  split
  · exact le_rfl
  · simp
    omega

theorem joinNL_eq_empty_iff {xs : List String} (h : "" ∉ xs) :
    joinNL xs = "" ↔ xs = [] := by
  constructor
  · intro he
    cases xs with
    | nil => rfl
    | cons x rest =>
      exfalso
      have hx : x ≠ "" := by intro hc; exact h (by simp [hc])
      have hle : x.length ≤ (joinNL (x :: rest)).length := length_joinNL_cons_ge x rest
      rw [he] at hle
      have h0 : x.data.length = 0 := Nat.le_zero.mp hle
      exact hx (String.ext (List.length_eq_zero.mp h0))
  · intro h2; simp [h2, joinNL]

theorem joinNL_append {xs ys : List String} (hx : xs ≠ []) (hy : ys ≠ []) :
    joinNL (xs ++ ys) = joinNL xs ++ "\n" ++ joinNL ys := by
  induction xs with
  | nil => exact absurd rfl hx
  | cons a t ih =>
    cases t with
    | nil =>
      have h1 : joinNL (a :: ys) = a ++ "\n" ++ joinNL ys := by
        rw [joinNL_cons, if_neg hy]
      simpa [joinNL_cons] using h1
    | cons c u =>
      have hne : (c :: u) ++ ys ≠ [] := by simp
      have h1 : joinNL (a :: ((c :: u) ++ ys)) =
          a ++ "\n" ++ joinNL ((c :: u) ++ ys) := by
        rw [joinNL_cons, if_neg hne]
      have h2 : joinNL (a :: c :: u) = a ++ "\n" ++ joinNL (c :: u) := by
        rw [joinNL_cons]; simp
      calc joinNL ((a :: c :: u) ++ ys)
          = a ++ "\n" ++ joinNL ((c :: u) ++ ys) := h1
        _ = a ++ "\n" ++ (joinNL (c :: u) ++ "\n" ++ joinNL ys) := by
              rw [ih (by simp)]
        _ = (a ++ "\n" ++ joinNL (c :: u)) ++ "\n" ++ joinNL ys := by
              simp [String.append_assoc]
        _ = joinNL (a :: c :: u) ++ "\n" ++ joinNL ys := by rw [h2]

theorem glyph_line_ne_empty (p g n : String) (hg : g.length = 4) :
    p ++ g ++ n ≠ "" := by
  intro h
  have hlen : (p ++ g ++ n).length = 0 := by rw [h]; rfl
  simp [String.length_append, hg] at hlen

theorem genTreeList_nil (d : List String) (s : Option Matcher) (p : String) :
    genTreeList d s p [] = [] := by
  rw [genTreeList.eq_def]

theorem genTreeList_cons (d : List String) (s : Option Matcher) (p : String)
    (e : FsEntry) (es : List FsEntry) :
    genTreeList d s p (e :: es) =
    (if should_ignore (d ++ [e.name]) d s then []
     else
       (p ++ (if es.isEmpty then "\u2514\u2500\u2500 " else "\u251c\u2500\u2500 ") ++ e.name) ::
       (match e with
        | .file _ => []
        | .dir nm cs =>
          let subtree :=
            joinNL (genTreeList (d ++ [nm]) s
              (p ++ (if es.isEmpty then "    " else "\u2502   "))
              (sortedChildren cs))
          if subtree = "" then [] else [subtree])) ++
    genTreeList d s p es := by
  rw [genTreeList.eq_def]

theorem treeEntries_nil (d : List String) (s : Option Matcher) (p : String) :
    treeEntries d s p [] = [] := by
  rw [treeEntries.eq_def]

theorem treeEntries_cons (d : List String) (s : Option Matcher) (p : String)
    (e : FsEntry) (es : List FsEntry) :
    treeEntries d s p (e :: es) =
    (if should_ignore (d ++ [e.name]) d s then []
     else
       (d ++ [e.name],
        p ++ (if es.isEmpty then "\u2514\u2500\u2500 " else "\u251c\u2500\u2500 ") ++ e.name,
        e.isFile) ::
       (match e with
        | .file _ => []
        | .dir nm cs =>
          treeEntries (d ++ [nm]) s
            (p ++ (if es.isEmpty then "    " else "\u2502   "))
            (sortedChildren cs))) ++
    treeEntries d s p es := by
  rw [treeEntries.eq_def]

theorem genTreeList_ne_empty (d : List String) (s : Option Matcher) (p : String)
    (l : List FsEntry) : "" ∉ genTreeList d s p l := by
  induction d, s, p, l using genTreeList.induct with
  | case1 d s p => simp [genTreeList_nil]
  | case2 d s p e es ih1 ih2 =>
    simp only [genTreeList_cons]
    intro hmem
    rcases List.mem_append.mp hmem with h | h
    · by_cases hig : should_ignore (d ++ [e.name]) d s
      · simp [hig] at h
      · simp only [hig, if_false, Bool.false_eq_true, List.mem_cons] at h
        rcases h with h | h
        · exact glyph_line_ne_empty p _ e.name (by split <;> rfl) h.symm
        · cases e with
          | file n => simp at h
          | dir nm cs =>
            simp at h
            exact h.1 h.2.symm
    · exact ih2 h

theorem treeEntries_line_ne_empty (d : List String) (s : Option Matcher)
    (p : String) (l : List FsEntry) :
    "" ∉ (treeEntries d s p l).map entryLine := by
  induction d, s, p, l using treeEntries.induct with
  | case1 d s p => simp [treeEntries_nil]
  | case2 d s p e es ih1 ih2 =>
    simp only [treeEntries_cons]
    intro hmem
    rw [List.map_append] at hmem
    rcases List.mem_append.mp hmem with h | h
    · by_cases hig : should_ignore (d ++ [e.name]) d s
      · simp [hig] at h
      · simp only [hig, if_false, Bool.false_eq_true, List.map_cons, List.mem_cons] at h
        rcases h with h | h
        · exact glyph_line_ne_empty p _ e.name (by split <;> rfl) h.symm
        · cases e with
          | file n => simp at h
          | dir nm cs => exact ih1 h
    · exact ih2 h

theorem joinNL_cons_congr {xs ys : List String} (a : String)
    (h : joinNL xs = joinNL ys) (hx : "" ∉ xs) (hy : "" ∉ ys) :
    joinNL (a :: xs) = joinNL (a :: ys) := by
  rw [joinNL_cons, joinNL_cons]
  by_cases he : xs = []
  · have : ys = [] := by
      rw [← joinNL_eq_empty_iff hy, ← h, joinNL_eq_empty_iff hx]
      exact he
    simp [he, this]
  · have hys : ys ≠ [] := by
      intro hc
      exact he (by
        rw [← joinNL_eq_empty_iff hx, h, joinNL_eq_empty_iff hy]
        exact hc)
    simp [he, hys, h]

theorem joinNL_subtree_step (hl : String) (L1 T1 Lr Tr : List String)
    (h1 : joinNL L1 = joinNL T1) (h2 : joinNL Lr = joinNL Tr)
    (hT1 : "" ∉ T1) (hLr : "" ∉ Lr) (hTr : "" ∉ Tr) :
    joinNL ((hl :: (if joinNL L1 = "" then [] else [joinNL L1])) ++ Lr)
      = joinNL (hl :: (T1 ++ Tr)) := by
  by_cases he : joinNL L1 = ""
  · have hT1nil : T1 = [] := by
      rw [← joinNL_eq_empty_iff hT1, ← h1]
      exact he
    rw [if_pos he, hT1nil]
    simp only [List.nil_append, List.cons_append]
    exact joinNL_cons_congr hl h2 hLr hTr
  · have hT1nil : T1 ≠ [] := by
      intro hc
      rw [hc] at h1
      exact he (h1.trans rfl)
    rw [if_neg he]
    simp only [List.cons_append, List.nil_append]
    rw [joinNL_cons, if_neg (by simp : joinNL L1 :: Lr ≠ [])]
    rw [joinNL_cons hl (T1 ++ Tr), if_neg (by simp [hT1nil] : T1 ++ Tr ≠ [])]
    by_cases hLrnil : Lr = []
    · have hTrnil : Tr = [] := by
        rw [← joinNL_eq_empty_iff hTr, ← h2, joinNL_eq_empty_iff hLr]
        exact hLrnil
      rw [joinNL_cons (joinNL L1) Lr, if_pos hLrnil, hTrnil, List.append_nil, h1]
    · have hTrnil : Tr ≠ [] := by
        intro hc
        exact hLrnil (by
          rw [← joinNL_eq_empty_iff hLr, h2, joinNL_eq_empty_iff hTr]
          exact hc)
      rw [joinNL_cons (joinNL L1) Lr, if_neg hLrnil,
          joinNL_append hT1nil hTrnil, h1, h2]

/-- Bridge: the string built by `generate_directory_tree`'s item list is
the `\n`-join of the flat `treeEntries` lines. -/
theorem joinNL_genTreeList_eq (d : List String) (s : Option Matcher)
    (p : String) (l : List FsEntry) :
    joinNL (genTreeList d s p l) = joinNL ((treeEntries d s p l).map entryLine) := by
  induction d, s, p, l using genTreeList.induct with
  | case1 d s p => simp [genTreeList_nil, treeEntries_nil]
  | case2 d s p e es ih1 ih2 =>
    simp only [genTreeList_cons, treeEntries_cons, List.map_append]
    by_cases hig : should_ignore (d ++ [e.name]) d s
    · simp only [hig, if_true, List.nil_append]
      exact ih2
    · simp only [hig, if_false, Bool.false_eq_true, List.map_cons, List.cons_append]
      cases e with
      | file n =>
        simp only [List.nil_append, entryLine]
        exact joinNL_cons_congr _ ih2 (genTreeList_ne_empty d s p es)
          (treeEntries_line_ne_empty d s p es)
      | dir nm cs =>
        dsimp only at ih1 ⊢
        simp only [dite_eq_ite] at ih1
        simp only [entryLine]
        exact joinNL_subtree_step _ _ _ _ _ ih1 ih2
          (treeEntries_line_ne_empty _ _ _ _)
          (genTreeList_ne_empty d s p es)
          (treeEntries_line_ne_empty d s p es)

/-- The rendered tree text is the join of the `treeEntries` lines. -/
theorem generate_directory_tree_eq_lines (d : List String)
    (children : List FsEntry) (s : Option Matcher) (p : String) :
    generate_directory_tree d children s p =
      joinNL ((treeEntries d s p (sortedChildren children)).map entryLine) :=
  joinNL_genTreeList_eq d s p (sortedChildren children)

/-! ### Pruning invariants of the rendered tree -/

/-- Every step from `d` down the component list is rendered only if it is
not ignored relative to its parent directory — the walk's pruning
condition along one path. -/
def stepsClear (s : Option Matcher) : List String → List String → Bool
  | _, [] => true
  | d, n :: rest => !should_ignore (d ++ [n]) d s && stepsClear s (d ++ [n]) rest

theorem treeEntries_path_shape (d : List String) (s : Option Matcher)
    (p : String) (l : List FsEntry) :
    ∀ X ∈ treeEntries d s p l,
      ∃ mid, mid ≠ [] ∧ X.1 = d ++ mid ∧ stepsClear s d mid = true := by
  induction d, s, p, l using treeEntries.induct with
  | case1 d s p => simp [treeEntries_nil]
  | case2 d s p e es ih1 ih2 =>
    intro X hX
    rw [treeEntries_cons] at hX
    rcases List.mem_append.mp hX with h | h
    · by_cases hig : should_ignore (d ++ [e.name]) d s
      · simp [hig] at h
      · simp only [hig, if_false, Bool.false_eq_true, List.mem_cons] at h
        rcases h with h | h
        · refine ⟨[e.name], by simp, by rw [h], ?_⟩
          simp [stepsClear, hig]
        · cases e with
          | file n => simp at h
          | dir nm cs =>
            dsimp only at ih1
            simp only [dite_eq_ite] at ih1
            obtain ⟨mid, hne, hpath, hclear⟩ := ih1 X h
            refine ⟨nm :: mid, by simp, ?_, ?_⟩
            · rw [hpath]; simp
            · simp only [stepsClear, Bool.and_eq_true, Bool.not_eq_true']
              exact ⟨by simpa using hig, hclear⟩
    · exact ih2 X h

theorem relativeTo_append (d x : List String) : relativeTo (d ++ x) d = some x := by
  unfold relativeTo
  rw [if_pos ⟨x, rfl⟩]
  simp

theorem relativeTo_nil (q : List String) : relativeTo q [] = some q := by
  simpa using relativeTo_append [] q

theorem should_ignore_git_step (d : List String) (s : Option Matcher) :
    should_ignore (d ++ [".git"]) d s = true := by
  unfold should_ignore
  rw [relativeTo_append]
  simp

theorem stepsClear_no_git {s : Option Matcher} :
    ∀ {mid d : List String}, stepsClear s d mid = true → ".git" ∉ mid := by
  intro mid
  induction mid with
  | nil => intro d _; simp
  | cons n rest ih =>
    intro d h
    simp only [stepsClear, Bool.and_eq_true, Bool.not_eq_true'] at h
    intro hmem
    rcases List.mem_cons.mp hmem with rfl | hmem2
    · rw [should_ignore_git_step] at h
      simp at h
    · exact ih h.2 hmem2

theorem mem_get_files (root : List FsEntry) (s : Option Matcher)
    {q : List String} (h : q ∈ get_files_recursively root s) :
    should_ignore q [] s = false := by
  have := List.of_mem_filter h
  simpa using this

theorem should_ignore_of_git {path base parts : List String} (s : Option Matcher)
    (hrel : relativeTo path base = some parts) (hgit : ".git" ∈ parts) :
    should_ignore path base s = true := by
  unfold should_ignore
  rw [hrel]
  simp [hgit]

/-- C3: a path whose form relative to the scan root contains a `.git`
component is reported ignored by `should_ignore` for every matcher
(including matchers that would re-include it); consequently such a path
never appears in `get_files_recursively`'s file list, and no entry whose
path contains a `.git` component below the rendered directory is ever
rendered by the tree walk. -/
theorem C3_git_always_ignored :
    (∀ (path base parts : List String) (s : Option Matcher),
        relativeTo path base = some parts → ".git" ∈ parts →
        should_ignore path base s = true) ∧
    (∀ (root : List FsEntry) (s : Option Matcher) (q : List String),
        ".git" ∈ q → q ∉ get_files_recursively root s) ∧
    (∀ (d : List String) (children : List FsEntry) (s : Option Matcher)
        (p : String) (X : List String × String × Bool),
        X ∈ treeEntries d s p (sortedChildren children) →
        ".git" ∉ X.1.drop d.length) := by
  refine ⟨fun path base parts s hrel hgit => should_ignore_of_git s hrel hgit,
    fun root s q hgit hmem => ?_, fun d children s p X hX => ?_⟩
  · have hf := mem_get_files root s hmem
    rw [should_ignore_of_git s (relativeTo_nil q) hgit] at hf
    simp at hf
  · obtain ⟨mid, _, hpath, hclear⟩ :=
      treeEntries_path_shape d s p (sortedChildren children) X hX
    rw [hpath, List.drop_left]
    exact stepsClear_no_git hclear

/-- Witness for C3 at a concrete tree: files inside a `.git` directory are
absent from the file list even with no matcher configured. -/
theorem C3_git_always_ignored_w :
    ["sub", ".git", "f.txt"] ∉
      get_files_recursively [.dir "sub" [.dir ".git" [.file "f.txt"]]] none :=
  C3_git_always_ignored.2.1 _ none _ (by decide)

/-! ### A concrete gitignore matcher for counterexamples -/

/-- `a` is a string prefix of `b` (computed on the character lists). -/
def strPrefix (a b : String) : Bool := a.data.isPrefixOf b.data

/-- Modelled from the spec (§4.1): the matching semantics of the external
`pathspec` library (`PathSpec.from_lines(GitWildMatchPattern, ...)`,
not part of src/), restricted to the rooted, wildcard-free patterns used
in this development.  A parsed pattern is `(negation?, body)` for raw
pattern text `/body` resp. `!/body`; it matches a relative path that
equals the body or lies beneath it (`body/...`); patterns are evaluated
in order and the verdict of the last matching one wins (`!` re-includes),
no match meaning "not ignored". -/
def gitMatchFile (pats : List (Bool × String)) (path : String) : Bool :=
  pats.foldl
    (fun acc pr =>
      if path == pr.2 || strPrefix (pr.2 ++ "/") path then !pr.1 else acc)
    false

/-- C1, counterexample: with patterns `/build` and `!/build/output.txt`
(last matching rule wins, so the negation re-includes the file), the
directory `build` is excluded by the classifier, yet its descendant
`build/output.txt` appears in the file list returned by the walk —
`get_files_recursively` re-checks every file individually instead of
cutting the subtree. -/
theorem C1_cx :
    should_ignore ["build"] []
        (some (gitMatchFile [(false, "build"), (true, "build/output.txt")])) =
      true ∧
    ["build", "output.txt"] ∈
      get_files_recursively [.dir "build" [.file "output.txt"]]
        (some (gitMatchFile [(false, "build"), (true, "build/output.txt")])) := by
  constructor
  · decide
  · decide

/-- C1, amended: (1) in the rendered tree, exclusion is a true subtree
cut — every rendered entry lies at the end of a chain of steps none of
which was ignored relative to its parent, so nothing below an ignored
directory is ever rendered; (2) in the flat file list, the descendants of
a directory excluded by the classifier are all absent provided the
matcher is subtree-closed (it matches every extension of a path it
matches, as non-negated patterns do); a negation pattern can re-include
an individual descendant (see the counterexample). -/
theorem C1_excluded_dir_prunes :
    (∀ (d : List String) (s : Option Matcher) (p : String) (l : List FsEntry)
        (X : List String × String × Bool), X ∈ treeEntries d s p l →
        ∃ mid, mid ≠ [] ∧ X.1 = d ++ mid ∧ stepsClear s d mid = true) ∧
    (∀ (root : List FsEntry) (m : Matcher),
        (∀ s t : List String, m (pathStr s) = true → s <+: t →
          m (pathStr t) = true) →
        ∀ dpath q : List String,
          should_ignore dpath [] (some m) = true → dpath <+: q →
          q ∉ get_files_recursively root (some m)) := by
  constructor
  · exact fun d s p l X hX => treeEntries_path_shape d s p l X hX
  · intro root m hmono dpath q hd hpre hq
    have hf := mem_get_files root (some m) hq
    unfold should_ignore at hd hf
    rw [relativeTo_nil] at hd hf
    dsimp only at hd hf
    simp only [Bool.or_eq_true, decide_eq_true_eq] at hd
    simp only [Bool.or_eq_false_iff, decide_eq_false_iff_not] at hf
    rcases hd with hgit | hm
    · exact hf.1 (hpre.subset hgit)
    · rw [hmono dpath q hm hpre] at hf
      simp at hf

/-- Witness for C1's amended theorem at concrete inputs: a rendered entry
of a one-directory tree has the pruning-invariant shape, and with the
subtree-closed matcher that ignores everything, a file below the excluded
`build` directory is absent from the file list. -/
theorem C1_excluded_dir_prunes_w :
    (∃ mid, mid ≠ [] ∧
        ((["src"], "└── src", (false : Bool)) :
            List String × String × Bool).1 = [] ++ mid ∧
        stepsClear none [] mid = true) ∧
    ["build", "output.txt"] ∉
      get_files_recursively [.dir "build" [.file "output.txt"]]
        (some (fun _ => true)) := by
  constructor
  · refine C1_excluded_dir_prunes.1 [] none "" [.dir "src" []]
      (["src"], "└── src", false) ?_
    have hev : treeEntries [] none "" [FsEntry.dir "src" []] =
        [(["src"], "└── src", false)] := by
      simp +decide [treeEntries_cons, treeEntries_nil, sortedChildren]
    rw [hev]
    simp
  · exact C1_excluded_dir_prunes.2 _ _ (fun _ _ _ _ => rfl) ["build"] _
      (by decide) ⟨["output.txt"], rfl⟩

/-! ### C5: connector glyphs -/

/-- The head lines of the (non-ignored) children at one directory level,
in rendering order: the `tree.append(f"{prefix}{current_prefix}{path.name}")`
lines of one invocation of `generate_directory_tree`, without the nested
subtree lines. -/
def renderedHeads (d : List String) (s : Option Matcher) (p : String) :
    List FsEntry → List String
  | [] => []
  | e :: rest =>
    (if should_ignore (d ++ [e.name]) d s then []
     else [p ++ (if rest.isEmpty then "└── " else "├── ") ++ e.name]) ++
    renderedHeads d s p rest

/-- The level's head lines all occur, in order, among the rendered lines
of the tree text. -/
theorem renderedHeads_sublist (d : List String) (s : Option Matcher)
    (p : String) (l : List FsEntry) :
    List.Sublist (renderedHeads d s p l) ((treeEntries d s p l).map entryLine) := by
  induction l with
  | nil => simp [renderedHeads, treeEntries_nil]
  | cons e rest ih =>
    rw [renderedHeads, treeEntries_cons]
    by_cases hig : should_ignore (d ++ [e.name]) d s
    · simp only [hig, if_true, List.nil_append]
      exact ih.trans (by simp)
    · simp only [hig, if_false, Bool.false_eq_true, List.map_append,
        List.map_cons, List.cons_append, List.singleton_append, entryLine]
      refine List.Sublist.cons₂ _ (ih.trans ?_)
      exact List.sublist_append_right _ _

/-- C5, counterexample: in a directory whose alphabetically last child is
excluded by the matcher, the last rendered sibling is prefixed `├── `,
not `└── `, because `is_last` is computed over all children before the
exclusion filter.  The whole rendered text is the single line
`├── a.txt`. -/
theorem C5_cx :
    generate_directory_tree [] [.file "a.txt", .file "z.txt"]
      (some (gitMatchFile [(false, "z.txt")])) "" = "├── a.txt" := by
  simp +decide [generate_directory_tree, genTreeList_cons, genTreeList_nil,
    sortedChildren, joinNL, List.insertionSort, List.orderedInsert, childLE,
    childKey, pairLE, pairLT, FsEntry.isFile, FsEntry.name, pyLower, lowerChar]

/-- C5, amended: the connector `└── ` marks the child that is last in the
sorted order of all children including excluded ones (and likewise the
`    ` continuation); therefore the claimed rule — last rendered sibling
`└── `, every other rendered sibling `├── ` — holds at a level exactly
when that last sorted child is itself rendered, i.e. when no excluded
entry sorts after the last included one. -/
theorem C5_glyphs (d : List String) (s : Option Matcher) (p : String)
    (cs : List FsEntry) (e : FsEntry) (init : List FsEntry)
    (hlast : sortedChildren cs = init ++ [e])
    (hn : should_ignore (d ++ [e.name]) d s = false) :
    renderedHeads d s p (sortedChildren cs) =
      (init.filter (fun c => !should_ignore (d ++ [c.name]) d s)).map
        (fun c => p ++ "├── " ++ c.name) ++ [p ++ "└── " ++ e.name] := by
  rw [hlast]
  clear hlast
  induction init with
  | nil => simp [renderedHeads, hn]
  | cons c init2 ih =>
    rw [List.cons_append, renderedHeads]
    by_cases hig : should_ignore (d ++ [c.name]) d s
    · simp [hig, List.filter_cons, ih]
    · simp [hig, List.filter_cons, ih]

/-- Witness for C5's amended theorem: with no matcher, a two-file level
renders `├── a.txt` then `└── z.txt`. -/
theorem C5_glyphs_w :
    renderedHeads [] none ""
        (sortedChildren [FsEntry.file "z.txt", FsEntry.file "a.txt"]) =
      ([FsEntry.file "a.txt"].filter
          (fun c => !should_ignore ([] ++ [c.name]) [] none)).map
        (fun c => "" ++ "├── " ++ c.name) ++ ["" ++ "└── " ++ "z.txt"] := by
  refine C5_glyphs [] none "" _ (FsEntry.file "z.txt") [FsEntry.file "a.txt"]
    ?_ (by decide)
  simp +decide [sortedChildren, List.insertionSort, List.orderedInsert,
    childLE, childKey, pairLE, pairLT, FsEntry.isFile, FsEntry.name,
    pyLower, lowerChar]

/-! ### C6: totality of the sort key -/

/-- C6, counterexample: two distinct sibling files whose names differ only
in letter case receive identical sort keys — the comparison is not total
on distinct paths. -/
theorem C6_cx :
    get_path_sort_key [.file "A.txt", .file "a.txt"] ["A.txt"] =
      get_path_sort_key [.file "A.txt", .file "a.txt"] ["a.txt"] ∧
    (["A.txt"] : List String) ≠ ["a.txt"] := by
  constructor
  · decide
  · decide

theorem sort_key_snd (root : List FsEntry) :
    ∀ (parts done : List String),
      (get_path_sort_key_go root done parts).map Prod.snd = parts.map pyLower := by
  intro parts
  induction parts with
  | nil => intro done; simp [get_path_sort_key_go]
  | cons p rest ih =>
    intro done
    simp [get_path_sort_key_go, ih]

/-- C6, amended: the sort key determines the relative path up to ASCII
lowercasing of each component — two paths under the same scan root
receive equal keys only when their component lists agree after
lowercasing (so only case-colliding names can compare equal). -/
theorem C6_sort_key_total (root : List FsEntry) (p q : List String)
    (h : get_path_sort_key root p = get_path_sort_key root q) :
    p.map pyLower = q.map pyLower := by
  have hp := sort_key_snd root p []
  have hq := sort_key_snd root q []
  rw [← hp, ← hq]
  unfold get_path_sort_key at h
  rw [h]

/-- Witness for C6's amended theorem at the counterexample inputs. -/
theorem C6_sort_key_total_w :
    List.map pyLower ["A.txt"] = List.map pyLower ["a.txt"] :=
  C6_sort_key_total [.file "A.txt", .file "a.txt"] _ _ (by decide)

/-! ### C10: sort_files is a stable permutation -/

theorem keyLE_refl (k : List (Bool × String)) : keyLE k k = true := by
  simp [keyLE]

/-- C10: `sort_files` returns a permutation of its input (every input path
appears exactly once, nothing else appears), and it is stable: two paths
with equal sort keys occur in the output in their input order. -/
theorem C10_sort_files_perm_stable :
    (∀ (root : List FsEntry) (files : List (List String)),
        (sort_files root files).Perm files) ∧
    (∀ (root : List FsEntry) (files : List (List String)) (p q : List String),
        get_path_sort_key root p = get_path_sort_key root q →
        List.Sublist [p, q] files →
        List.Sublist [p, q] (sort_files root files)) := by
  constructor
  · intro root files
    exact List.perm_insertionSort _ files
  · intro root files p q hk hsub
    refine List.pair_sublist_insertionSort ?_ hsub
    rw [hk]
    exact keyLE_refl _

/-- Witness for C10 at concrete inputs: two case-colliding files keep
their input order through the sort, and the output is a permutation. -/
theorem C10_sort_files_perm_stable_w :
    (sort_files [.file "A", .file "a"] [["A"], ["a"]]).Perm [["A"], ["a"]] ∧
    List.Sublist [["A"], ["a"]]
      (sort_files [.file "A", .file "a"] [["A"], ["a"]]) :=
  ⟨C10_sort_files_perm_stable.1 _ _,
   C10_sort_files_perm_stable.2 [.file "A", .file "a"] _ ["A"] ["a"]
     (by decide) (List.Sublist.refl _)⟩

/-! ### C4 and C9: pattern-list assembly -/

/-- The built-in default ignore patterns.  `cli.py` imports the table from
`constants.py`, which is missing from src/; the identical table appears in
the older draft `src/main.py`, reproduced here. -/
def DEFAULT_IGNORE_PATTERNS : List String :=
  [".git", ".gitignore", ".gitattributes", ".hg", ".hgignore", ".svn",
   ".python-version", "pyproject.toml", "poetry.lock", "requirements.txt",
   "Pipfile", "Pipfile.lock", "uv.lock", "ruff.toml", "__pycache__",
   "*.pyc", "*.pyo", "*.pyd", ".pytest_cache", ".coverage", ".tox",
   ".venv", "venv",
   "package.json", "package-lock.json", "yarn.lock", "pnpm-lock.yaml",
   "bun.lockb", "node_modules", ".npmrc", ".yarnrc",
   ".vscode", ".idea", ".vs", "*.swp", "*.swo", ".DS_Store",
   "dist", "build", "*.egg-info", "*.whl",
   ".env", ".env.*", "*.cfg", ".editorconfig",
   "LICENSE", "LICENSE.*", "COPYING", "AUTHORS"]

/-- cli.py `main`, directory mode, ignore-pattern resolution: a supplied
`--ignore` list is used as is (the `--extra-ignore` list is only consulted
in the `else` branch); otherwise the defaults, extended by the extras when
present.  Python's `if extra_ignore:` skips both `None` and the empty
list; appending the empty list is the identity, so one `match` covers
both. -/
def patterns_to_use (ignoreOpt extraOpt : Option (List String)) : List String :=
  match ignoreOpt with
  | some ps => ps
  | none =>
    DEFAULT_IGNORE_PATTERNS ++
      (match extraOpt with
       | some es => es
       | none => [])

/-- Python `c in "\t\n\x0b\x0c\r "` — the whitespace stripped by
`str.strip()` (ASCII scope). -/
def isPySpace (c : Char) : Bool :=
  c == ' ' || c == '\t' || c == '\n' || c == '\r' || c == '\x0b' || c == '\x0c'

/-- Python `line.strip()`: drop leading and trailing whitespace. -/
def pyStrip (s : String) : String :=
  String.mk (((s.data.dropWhile isPySpace).reverse.dropWhile isPySpace).reverse)

/-- Python `line.startswith("#")`: the first character is `#`. -/
def startsWithHash (s : String) : Bool := s.data.head? == some '#'

/-- filesystem.py `load_gitignore`, the gitignore list comprehension:
`[line.strip() for line in f if line.strip() and not line.startswith("#")]`. -/
def gitignoreFilteredLines (ls : List String) : List String :=
  (ls.filter (fun l => !(pyStrip l == "") && !startsWithHash l)).map pyStrip

/-- filesystem.py `load_gitignore(directory, additional_patterns)`: the
pattern list handed to `PathSpec.from_lines` — the additional patterns,
extended by the filtered `.gitignore` lines when the file exists and is
readable (`none` models both a missing file and a read error, which
contribute nothing). -/
def load_gitignore (gitignoreLines : Option (List String))
    (additional : List String) : List String :=
  match gitignoreLines with
  | none => additional
  | some ls => additional ++ gitignoreFilteredLines ls

/-- Modelled from the spec (§4.1): which handed-over pattern lines
contribute a rule to the compiled matcher.  The pattern engine (the
external `pathspec` library, not in src/) follows gitignore semantics: a
blank pattern matches nothing and a pattern whose text starts with `#` is
a comment, so neither contributes. -/
def effectivePatterns (pats : List String) : List String :=
  pats.filter (fun p => !(p == "") && !startsWithHash p)

/-- C4, counterexample: with `--ignore ['*.log']` and
`--extra-ignore ['secret/']`, the extras are dropped — the final pattern
list layered with a `.gitignore` line `g.log` is `['*.log', 'g.log']`,
without `secret/`. -/
theorem C4_cx :
    load_gitignore (some ["g.log"])
        (patterns_to_use (some ["*.log"]) (some ["secret/"])) =
      ["*.log", "g.log"] ∧
    "secret/" ∉
      load_gitignore (some ["g.log"])
        (patterns_to_use (some ["*.log"]) (some ["secret/"])) := by
  constructor
  · decide
  · decide

/-- C4, amended: a supplied replacement list fully replaces the defaults
and also suppresses the extra patterns (`--extra-ignore` is only consulted
when no replacement is given); the `.gitignore` patterns still layer on
top of the replacement, and an explicitly empty replacement disables all
default ignoring while the gitignore contribution still applies.  Without
a replacement, extras extend the defaults. -/
theorem C4_pattern_layering :
    (∀ (ps : List String) (extra : Option (List String)) (glines : List String),
        load_gitignore (some glines) (patterns_to_use (some ps) extra) =
          ps ++ gitignoreFilteredLines glines) ∧
    (∀ (extra : Option (List String)) (glines : List String),
        load_gitignore (some glines) (patterns_to_use (some []) extra) =
          gitignoreFilteredLines glines) ∧
    (∀ (es glines : List String),
        load_gitignore (some glines) (patterns_to_use none (some es)) =
          DEFAULT_IGNORE_PATTERNS ++ es ++ gitignoreFilteredLines glines) := by
  refine ⟨fun ps extra glines => rfl, fun extra glines => rfl,
    fun es glines => ?_⟩
  simp [load_gitignore, patterns_to_use, List.append_assoc]

theorem dropWhile_append_singleton {p : Char → Bool} {c : Char}
    (h : p c = false) (l : List Char) :
    ∃ ys, (l ++ [c]).dropWhile p = ys ++ [c] := by
  induction l with
  | nil => exact ⟨[], by simp [List.dropWhile_cons, h]⟩
  | cons a t ih =>
    by_cases hpa : p a
    · simpa [List.dropWhile_cons, hpa] using ih
    · exact ⟨a :: t, by simp [List.dropWhile_cons, hpa]⟩

/-- Stripping whitespace never removes a leading `#`. -/
theorem startsWithHash_pyStrip {l : String} (h : startsWithHash l = true) :
    startsWithHash (pyStrip l) = true := by
  unfold startsWithHash at h ⊢
  unfold pyStrip
  cases hd : l.data with
  | nil => rw [hd] at h; simp at h
  | cons c t =>
    rw [hd] at h
    simp only [List.head?_cons, Option.some.injEq, beq_iff_eq] at h
    subst h
    have hsp : isPySpace '#' = false := by decide
    simp only [List.dropWhile_cons, hsp, Bool.false_eq_true, if_false,
      List.reverse_cons]
    obtain ⟨ys, hys⟩ := dropWhile_append_singleton hsp t.reverse
    rw [hys]
    simp

/-- C9: the lines of a `.gitignore` file that contribute a rule to the
compiled matcher are exactly those that are non-blank after stripping and
whose first non-whitespace character is not `#`, each contributed in its
stripped form.  In particular an indented comment line contributes no
rule: the source's `line.startswith("#")` test misses it (the line is
passed along as the stripped pattern `# note`), but the pattern engine
then discards it as a comment. -/
theorem C9_gitignore_lines :
    (∀ ls : List String,
        effectivePatterns (gitignoreFilteredLines ls) =
          (ls.filter (fun l =>
            !(pyStrip l == "") && !startsWithHash (pyStrip l))).map pyStrip) ∧
    effectivePatterns (gitignoreFilteredLines ["  # note"]) = [] := by
  constructor
  · intro ls
    unfold effectivePatterns gitignoreFilteredLines
    rw [List.filter_map, List.filter_filter]
    refine congrArg (List.map pyStrip) (List.filter_congr ?_)
    intro a _
    by_cases hD : startsWithHash a
    · have hB := startsWithHash_pyStrip hD
      simp [Function.comp, hD, hB]
    · cases hA : (pyStrip a == "") <;>
        cases hB : startsWithHash (pyStrip a) <;>
        simp [Function.comp, hA, hB, hD]
  · decide

/-! ### C7 and C8: ContentLoader -/

/-- A valid Unicode scalar value: below 0x110000 and not a surrogate. -/
def validScalar (c : Nat) : Bool := c < 0x110000 && !(0xD800 ≤ c && c < 0xE000)

/-- Modelled from the spec: UTF-8 encoding of one scalar value (the
"universal text encoding" of §4.5; the codec is CPython's, external to
src/). -/
def utf8EncodeChar (c : Nat) : List Nat :=
  if c < 0x80 then [c]
  else if c < 0x800 then [0xC0 + c / 64, 0x80 + c % 64]
  else if c < 0x10000 then
    [0xE0 + c / 4096, 0x80 + c / 64 % 64, 0x80 + c % 64]
  else
    [0xF0 + c / 0x40000, 0x80 + c / 4096 % 64, 0x80 + c / 64 % 64, 0x80 + c % 64]

/-- UTF-8 encoding of a scalar-value sequence ("writing the file"). -/
def utf8Encode (cs : List Nat) : List Nat := (cs.map utf8EncodeChar).flatten

/-- A UTF-8 continuation byte. -/
def contByte (b : Nat) : Bool := 0x80 ≤ b && b < 0xC0

mutual

/-- Modelled from the spec: strict UTF-8 decoding of a byte sequence to
scalar values (CPython's `utf-8` codec: rejects stray or missing
continuation bytes, overlong forms, surrogates and values above
0x10FFFF), `none` being `UnicodeDecodeError`.  The lead byte selects a
sequence length, the helpers read the continuation bytes. -/
def utf8Decode : List Nat → Option (List Nat)
  | [] => some []
  | b0 :: rest =>
    if b0 < 0x80 then (utf8Decode rest).map (fun cs => b0 :: cs)
    else if b0 < 0xC0 then none
    else if b0 < 0xE0 then utf8Cont1 b0 rest
    else if b0 < 0xF0 then utf8Cont2 b0 rest
    else if b0 < 0xF8 then utf8Cont3 b0 rest
    else none

/-- Second byte of a 2-byte sequence. -/
def utf8Cont1 (b0 : Nat) : List Nat → Option (List Nat)
  | [] => none
  | b1 :: rest =>
    if contByte b1 then
      let v := (b0 - 0xC0) * 64 + (b1 - 0x80)
      if 0x80 ≤ v then (utf8Decode rest).map (fun cs => v :: cs) else none
    else none

/-- Second and third bytes of a 3-byte sequence. -/
def utf8Cont2 (b0 : Nat) : List Nat → Option (List Nat)
  | [] => none
  | [_] => none
  | b1 :: b2 :: rest =>
    if contByte b1 && contByte b2 then
      let v := (b0 - 0xE0) * 4096 + (b1 - 0x80) * 64 + (b2 - 0x80)
      if 0x800 ≤ v ∧ ¬(0xD800 ≤ v ∧ v < 0xE000) then
        (utf8Decode rest).map (fun cs => v :: cs)
      else none
    else none

/-- Second to fourth bytes of a 4-byte sequence. -/
def utf8Cont3 (b0 : Nat) : List Nat → Option (List Nat)
  | b1 :: b2 :: b3 :: rest =>
    if contByte b1 && contByte b2 && contByte b3 then
      let v := (b0 - 0xF0) * 0x40000 + (b1 - 0x80) * 4096 +
        (b2 - 0x80) * 64 + (b3 - 0x80)
      if 0x10000 ≤ v ∧ v < 0x110000 then
        (utf8Decode rest).map (fun cs => v :: cs)
      else none
    else none
  | _ => none

end

/-- filesystem.py `read_file_content(file_path)`, with the file's state as
explicit inputs: `osError` is an OS-level exception raised by the first
`read_text` before decoding starts (permission denied, missing file),
`bytes` the raw content, `localeResult` the text produced by the fallback
`read_text()` with the host default encoding (`none` when that fallback
fails with any exception).  `.error` models an exception propagating to
the caller, `.ok` a normal return (`none` being the unreadable sentinel).
The first `except` catches only `UnicodeDecodeError`, so an `osError`
outcome propagates. -/
def read_file_content (osError : Option String) (bytes : List Nat)
    (localeResult : Option (List Nat)) : Except String (Option (List Nat)) :=
  match osError with
  | some e => .error e
  | none =>
    match utf8Decode bytes with
    | some text => .ok (some text)
    | none => .ok localeResult

/-- C7: the encoding-fallback path never propagates an exception — any
byte content yields a normal return — but an OS-level error on the first
read (e.g. `PermissionError` on an unreadable file) is not caught by the
`except UnicodeDecodeError` handler and propagates to the caller, where
`generate_markdown_output`'s `except ValueError` does not catch it
either.  This contradicts the function's own docstring ("None if reading
fails") and the repository's tests
(`test_read_file_content_permission_denied`,
`test_read_file_content_nonexistent` expect `None`): the code, not the
claim, is wrong. -/
theorem C7_permission_error_propagates :
    read_file_content (some "PermissionError") [] none =
      .error "PermissionError" ∧
    (∀ (bytes : List Nat) (loc : Option (List Nat)),
        ∃ r, read_file_content none bytes loc = .ok r) := by
  constructor
  · rfl
  · intro bytes loc
    unfold read_file_content
    cases utf8Decode bytes with
    | none => exact ⟨loc, rfl⟩
    | some t => exact ⟨some t, rfl⟩

theorem utf8Decode_encodeChar (c : Nat) (h : validScalar c = true)
    (bs : List Nat) :
    utf8Decode (utf8EncodeChar c ++ bs) =
      (utf8Decode bs).map (fun cs => c :: cs) := by
  have h9 : c < 0x110000 ∧ (c < 0xD800 ∨ 0xE000 ≤ c) := by
    simpa [validScalar] using h
  obtain ⟨hmax, hsur⟩ := h9
  unfold utf8EncodeChar
  by_cases h1 : c < 0x80
  · rw [if_pos h1]
    rw [List.cons_append, List.nil_append, utf8Decode]
    rw [if_pos h1]
  · rw [if_neg h1]
    by_cases h2 : c < 0x800
    · rw [if_pos h2]
      rw [List.cons_append, List.cons_append, List.nil_append, utf8Decode]
      rw [if_neg (by omega), if_neg (by omega), if_pos (by omega), utf8Cont1]
      have hc1 : contByte (0x80 + c % 64) = true := by
        unfold contByte
        simp only [Bool.and_eq_true, decide_eq_true_eq]
        omega
      rw [if_pos hc1]
      have hv : (0xC0 + c / 64 - 0xC0) * 64 + (0x80 + c % 64 - 0x80) = c := by
        omega
      simp only [hv]
      rw [if_pos (by omega)]
    · rw [if_neg h2]
      by_cases h3 : c < 0x10000
      · rw [if_pos h3]
        rw [List.cons_append, List.cons_append, List.cons_append,
          List.nil_append, utf8Decode]
        rw [if_neg (by omega), if_neg (by omega), if_neg (by omega),
          if_pos (by omega), utf8Cont2]
        have hc1 : (contByte (0x80 + c / 64 % 64) &&
            contByte (0x80 + c % 64)) = true := by
          unfold contByte
          simp only [Bool.and_eq_true, decide_eq_true_eq]
          omega
        rw [if_pos hc1]
        have hv : (0xE0 + c / 4096 - 0xE0) * 4096 +
            (0x80 + c / 64 % 64 - 0x80) * 64 + (0x80 + c % 64 - 0x80) = c := by
          omega
        simp only [hv]
        rw [if_pos (by omega)]
      · rw [if_neg h3]
        rw [List.cons_append, List.cons_append, List.cons_append,
          List.cons_append, List.nil_append, utf8Decode]
        rw [if_neg (by omega), if_neg (by omega), if_neg (by omega),
          if_neg (by omega), if_pos (by omega), utf8Cont3]
        have hc1 : (contByte (0x80 + c / 4096 % 64) &&
            (contByte (0x80 + c / 64 % 64) && contByte (0x80 + c % 64))) = true := by
          unfold contByte
          simp only [Bool.and_eq_true, decide_eq_true_eq]
          omega
        rw [if_pos (by simpa [Bool.and_assoc] using hc1)]
        have hv : (0xF0 + c / 0x40000 - 0xF0) * 0x40000 +
            (0x80 + c / 4096 % 64 - 0x80) * 4096 +
            (0x80 + c / 64 % 64 - 0x80) * 64 + (0x80 + c % 64 - 0x80) = c := by
          omega
        simp only [hv]
        rw [if_pos (by omega)]

theorem utf8Decode_encode (cps : List Nat)
    (h : ∀ c ∈ cps, validScalar c = true) :
    utf8Decode (utf8Encode cps) = some cps := by
  induction cps with
  | nil => rw [utf8Encode, List.map_nil, List.flatten_nil, utf8Decode]
  | cons c rest ih =>
    unfold utf8Encode
    rw [List.map_cons, List.flatten_cons]
    rw [utf8Decode_encodeChar c (h c (by simp)) _]
    have h2 : utf8Decode ((rest.map utf8EncodeChar).flatten) = some rest :=
      ih (fun x hx => h x (by simp [hx]))
    unfold utf8Encode at h2
    rw [h2]
    rfl

/-- C8: ContentLoader round-trip — a file whose bytes are the UTF-8
encoding of some text decodes on the first attempt, so
`read_file_content` returns exactly that text (whatever the fallback
would do); in particular an empty file yields the empty text, never the
unreadable sentinel. -/
theorem C8_utf8_roundtrip :
    (∀ (cps : List Nat), (∀ c ∈ cps, validScalar c = true) →
        ∀ loc : Option (List Nat),
          read_file_content none (utf8Encode cps) loc = .ok (some cps)) ∧
    (∀ loc : Option (List Nat),
        read_file_content none [] loc = .ok (some [])) := by
  constructor
  · intro cps h loc
    unfold read_file_content
    rw [utf8Decode_encode cps h]
  · intro loc
    unfold read_file_content
    rw [show utf8Decode [] = some [] from by rw [utf8Decode]]

/-- Witness for C8 at a concrete text (scalar values crossing the 1-, 2-,
3- and 4-byte ranges) and at the empty file. -/
theorem C8_utf8_roundtrip_w :
    read_file_content none (utf8Encode [104, 233, 0x4E16, 0x1F600]) none =
      .ok (some [104, 233, 0x4E16, 0x1F600]) ∧
    read_file_content none [] (some [1]) = .ok (some []) :=
  ⟨C8_utf8_roundtrip.1 [104, 233, 0x4E16, 0x1F600] (by decide) none,
   C8_utf8_roundtrip.2 (some [1])⟩

/-! ### C2: the flat sort order matches the tree rendering order -/

/-- Spec-side order (refinement target): the depth-first file order of the
tree rendering — children sorted exactly as `generate_directory_tree`
sorts them, regular files collected in traversal order. -/
def dfsFiles (pre : List String) : List FsEntry → List (List String)
  | [] => []
  | e :: rest =>
    (match e with
     | .file n => [pre ++ [n]]
     | .dir n cs => dfsFiles (pre ++ [n]) (sortedChildren cs)) ++
    dfsFiles pre rest
termination_by l => sizeOf l
decreasing_by
  all_goals simp_all [sizeOf_sortedChildren]
  all_goals omega

/-- Spec-side order at the scan root. -/
def treeFileOrder (root : List FsEntry) : List (List String) :=
  dfsFiles [] (sortedChildren root)

theorem dfsFiles_nil (pre : List String) : dfsFiles pre [] = [] := by
  rw [dfsFiles.eq_def]

theorem dfsFiles_cons (pre : List String) (e : FsEntry) (rest : List FsEntry) :
    dfsFiles pre (e :: rest) =
    (match e with
     | .file n => [pre ++ [n]]
     | .dir n cs => dfsFiles (pre ++ [n]) (sortedChildren cs)) ++
    dfsFiles pre rest := by
  rw [dfsFiles.eq_def]

/-- The rendered file entries (path of every rendered regular file, in
line order) form a sublist of the spec-side depth-first order. -/
theorem treeEntries_files_sublist (d : List String) (s : Option Matcher)
    (p : String) (l : List FsEntry) :
    List.Sublist
      (((treeEntries d s p l).filter (fun t => t.2.2)).map (fun t => t.1))
      (dfsFiles d l) := by
  induction d, s, p, l using treeEntries.induct with
  | case1 d s p => simp [treeEntries_nil, dfsFiles_nil]
  | case2 d s p e es ih1 ih2 =>
    rw [treeEntries_cons, dfsFiles_cons]
    by_cases hig : should_ignore (d ++ [e.name]) d s
    · simp only [hig, if_true, List.nil_append]
      exact ih2.trans (List.sublist_append_right _ _)
    · simp only [hig, if_false, Bool.false_eq_true]
      cases e with
      | file n =>
        simp only [List.filter_cons, FsEntry.isFile, FsEntry.name,
          List.filter_append, List.map_append, List.map_cons, if_true]
        simp only [List.cons_append, List.nil_append]
        exact (List.Sublist.cons₂ _ (by simpa using ih2))
      | dir nm cs =>
        dsimp only at ih1
        simp only [dite_eq_ite] at ih1
        simp only [List.filter_cons, List.filter_append, FsEntry.isFile,
          FsEntry.name, List.map_append, Bool.false_eq_true, if_false]
        exact List.Sublist.append ih1 ih2

/-- Every collected file path strictly extends the directory prefix. -/
theorem dfsFiles_extends (pre : List String) (l : List FsEntry) :
    ∀ u ∈ dfsFiles pre l, ∃ q, q ≠ [] ∧ u = pre ++ q := by
  induction pre, l using dfsFiles.induct with
  | case1 pre => simp [dfsFiles_nil]
  | case2 pre e rest ih1 ih2 =>
    intro u hu
    rw [dfsFiles_cons] at hu
    rcases List.mem_append.mp hu with h | h
    · cases e with
      | file n =>
        simp only [List.mem_singleton] at h
        exact ⟨[n], by simp, h⟩
      | dir nm cs =>
        dsimp only at ih1
        obtain ⟨q, hq, hu2⟩ := ih1 u h
        exact ⟨nm :: q, by simp, by rw [hu2]; simp⟩
    · exact ih2 u h

/-- Key computation distributes over path concatenation. -/
theorem sort_key_go_append (root : List FsEntry) (done xs ys : List String) :
    get_path_sort_key_go root done (xs ++ ys) =
      get_path_sort_key_go root done xs ++
        get_path_sort_key_go root (done ++ xs) ys := by
  induction xs generalizing done with
  | nil => simp [get_path_sort_key_go]
  | cons x xs2 ih =>
    simp only [List.cons_append, get_path_sort_key_go, List.append_eq,
      List.append_assoc]
    rw [ih]
    simp

theorem pairLT_iff (a b : Bool × String) :
    pairLT a b = true ↔ (a.1 = false ∧ b.1 = true) ∨ (a.1 = b.1 ∧ a.2 < b.2) := by
  obtain ⟨a1, a2⟩ := a
  obtain ⟨b1, b2⟩ := b
  unfold pairLT
  cases a1 <;> cases b1 <;> simp

theorem pairLT_irrefl (a : Bool × String) : pairLT a a = false := by
  have := pairLT_iff a a
  by_contra hc
  rw [Bool.not_eq_false] at hc
  rcases this.mp hc with ⟨h1, h2⟩ | ⟨_, h2⟩
  · rw [h1] at h2; cases h2
  · exact lt_irrefl _ h2

theorem pairLT_asymm {a b : Bool × String} (h : pairLT a b = true) :
    pairLT b a = false := by
  by_contra hc
  rw [Bool.not_eq_false] at hc
  rw [pairLT_iff] at h hc
  obtain ⟨a1, a2⟩ := a
  obtain ⟨b1, b2⟩ := b
  simp only at h hc
  rcases h with ⟨h1, h2⟩ | ⟨h1, h2⟩ <;>
    rcases hc with ⟨g1, g2⟩ | ⟨g1, g2⟩
  · rw [h1] at g2; cases g2
  · rw [g1, h1] at h2; cases h2
  · rw [g1] at h1; rw [h1] at g2; cases g2
  · exact absurd g2 (not_lt_of_lt h2)

theorem pairLT_trans {a b c : Bool × String} (h1 : pairLT a b = true)
    (h2 : pairLT b c = true) : pairLT a c = true := by
  rw [pairLT_iff] at h1 h2 ⊢
  obtain ⟨a1, a2⟩ := a
  obtain ⟨b1, b2⟩ := b
  obtain ⟨c1, c2⟩ := c
  simp only at h1 h2 ⊢
  rcases h1 with ⟨u1, u2⟩ | ⟨u1, u2⟩ <;> rcases h2 with ⟨v1, v2⟩ | ⟨v1, v2⟩
  · rw [u2] at v1; cases v1
  · exact Or.inl ⟨u1, v1 ▸ u2⟩
  · exact Or.inl ⟨u1.trans v1, v2⟩
  · exact Or.inr ⟨u1.trans v1, u2.trans v2⟩

theorem pair_trichotomy (a b : Bool × String) :
    pairLT a b = true ∨ a = b ∨ pairLT b a = true := by
  obtain ⟨a1, a2⟩ := a
  obtain ⟨b1, b2⟩ := b
  rcases lt_trichotomy a2 b2 with h | h | h
  · cases a1 <;> cases b1 <;> simp [pairLT_iff, h]
  · subst h
    cases a1 <;> cases b1 <;> simp [pairLT_iff]
  · cases a1 <;> cases b1 <;> simp [pairLT_iff, h]

theorem pairLE_iff (a b : Bool × String) :
    pairLE a b = true ↔ pairLT a b = true ∨ a = b := by
  unfold pairLE
  simp [beq_iff_eq]

theorem keyLT_cons (x y : Bool × String) (xs ys : List (Bool × String)) :
    keyLT (x :: xs) (y :: ys) =
      (pairLT x y || (x == y && keyLT xs ys)) := rfl

theorem keyLT_append_common (K xs ys : List (Bool × String)) :
    keyLT (K ++ xs) (K ++ ys) = keyLT xs ys := by
  induction K with
  | nil => rfl
  | cons k K2 ih =>
    simp only [List.cons_append, keyLT_cons, pairLT_irrefl, Bool.false_or,
      beq_self_eq_true, Bool.true_and, ih]

theorem keyLT_irrefl (k : List (Bool × String)) : keyLT k k = false := by
  induction k with
  | nil => rfl
  | cons x xs ih => simp [keyLT_cons, pairLT_irrefl, ih]

theorem keyLT_asymm : ∀ {k l : List (Bool × String)},
    keyLT k l = true → keyLT l k = false := by
  intro k
  induction k with
  | nil =>
    intro l h
    cases l with
    | nil => cases h
    | cons y ys => rfl
  | cons x xs ih =>
    intro l h
    cases l with
    | nil => cases h
    | cons y ys =>
      rw [keyLT_cons] at h ⊢
      simp only [Bool.or_eq_true, Bool.and_eq_true, beq_iff_eq] at h
      rcases h with h | ⟨rfl, h⟩
      · have hne : y ≠ x := by
          intro he
          rw [he] at h
          rw [pairLT_irrefl] at h
          cases h
        simp [pairLT_asymm h, hne]
      · simp [pairLT_irrefl, ih h]

theorem keyLT_trans : ∀ {k l m : List (Bool × String)},
    keyLT k l = true → keyLT l m = true → keyLT k m = true := by
  intro k
  induction k with
  | nil =>
    intro l m h1 h2
    cases l with
    | nil => cases h1
    | cons y ys =>
      cases m with
      | nil => cases h2
      | cons z zs => rfl
  | cons x xs ih =>
    intro l m h1 h2
    cases l with
    | nil => cases h1
    | cons y ys =>
      cases m with
      | nil => cases h2
      | cons z zs =>
        rw [keyLT_cons] at h1 h2 ⊢
        simp only [Bool.or_eq_true, Bool.and_eq_true, beq_iff_eq] at h1 h2 ⊢
        rcases h1 with h1 | ⟨rfl, h1⟩ <;> rcases h2 with h2 | ⟨rfl, h2⟩
        · exact Or.inl (pairLT_trans h1 h2)
        · exact Or.inl h1
        · exact Or.inl h2
        · exact Or.inr ⟨rfl, ih h1 h2⟩

theorem key_trichotomy : ∀ (k l : List (Bool × String)),
    keyLT k l = true ∨ k = l ∨ keyLT l k = true := by
  intro k
  induction k with
  | nil =>
    intro l
    cases l with
    | nil => exact Or.inr (Or.inl rfl)
    | cons y ys => exact Or.inl rfl
  | cons x xs ih =>
    intro l
    cases l with
    | nil => exact Or.inr (Or.inr rfl)
    | cons y ys =>
      rcases pair_trichotomy x y with h | rfl | h
      · exact Or.inl (by simp [keyLT_cons, h])
      · rcases ih ys with h2 | rfl | h2
        · exact Or.inl (by simp [keyLT_cons, h2])
        · exact Or.inr (Or.inl rfl)
        · exact Or.inr (Or.inr (by simp [keyLT_cons, h2]))
      · exact Or.inr (Or.inr (by simp [keyLT_cons, h]))

theorem keyLE_iff (k l : List (Bool × String)) :
    keyLE k l = true ↔ keyLT k l = true ∨ k = l := by
  unfold keyLE
  simp [beq_iff_eq]

theorem keyLE_total (k l : List (Bool × String)) :
    keyLE k l = true ∨ keyLE l k = true := by
  rcases key_trichotomy k l with h | rfl | h
  · exact Or.inl ((keyLE_iff _ _).mpr (Or.inl h))
  · exact Or.inl ((keyLE_iff _ _).mpr (Or.inr rfl))
  · exact Or.inr ((keyLE_iff _ _).mpr (Or.inl h))

theorem keyLE_trans {k l m : List (Bool × String)} (h1 : keyLE k l = true)
    (h2 : keyLE l m = true) : keyLE k m = true := by
  rw [keyLE_iff] at h1 h2 ⊢
  rcases h1 with h1 | rfl <;> rcases h2 with h2 | rfl
  · exact Or.inl (keyLT_trans h1 h2)
  · exact Or.inl h1
  · exact Or.inl h2
  · exact Or.inr rfl

theorem pairLE_total (a b : Bool × String) :
    pairLE a b = true ∨ pairLE b a = true := by
  rcases pair_trichotomy a b with h | rfl | h
  · exact Or.inl ((pairLE_iff _ _).mpr (Or.inl h))
  · exact Or.inl ((pairLE_iff _ _).mpr (Or.inr rfl))
  · exact Or.inr ((pairLE_iff _ _).mpr (Or.inl h))

theorem pairLE_trans {a b c : Bool × String} (h1 : pairLE a b = true)
    (h2 : pairLE b c = true) : pairLE a c = true := by
  rw [pairLE_iff] at h1 h2 ⊢
  rcases h1 with h1 | rfl <;> rcases h2 with h2 | rfl
  · exact Or.inl (pairLT_trans h1 h2)
  · exact Or.inl h1
  · exact Or.inl h2
  · exact Or.inr rfl

mutual

/-- Filesystem sanity: inside every directory, the lowercased child names
are pairwise distinct (distinct names is a filesystem invariant; the
slightly stronger lowercase-distinctness is what the case-insensitive
sort needs, see C6). -/
def wellEntry : FsEntry → Bool
  | .file _ => true
  | .dir _ cs =>
    decide ((cs.map (fun e => pyLower e.name)).Nodup) && wellEntries cs

/-- `wellEntry` for every entry of a list. -/
def wellEntries : List FsEntry → Bool
  | [] => true
  | e :: es => wellEntry e && wellEntries es

end

/-- `wellEntry` everywhere, starting at the scan root. -/
def wellFS (root : List FsEntry) : Bool :=
  decide ((root.map (fun e => pyLower e.name)).Nodup) && wellEntries root

theorem wellEntries_mem {cs : List FsEntry} {e : FsEntry}
    (h : wellEntries cs = true) (he : e ∈ cs) : wellEntry e = true := by
  induction cs with
  | nil => cases he
  | cons x rest ih =>
    rw [wellEntries, Bool.and_eq_true] at h
    rcases List.mem_cons.mp he with rfl | he2
    · exact h.1
    · exact ih h.2 he2

theorem find_eq_of_nodup {cs : List FsEntry} {e : FsEntry}
    (hnd : (cs.map (fun x => pyLower x.name)).Nodup) (he : e ∈ cs) :
    cs.find? (fun x => x.name == e.name) = some e := by
  induction cs with
  | nil => cases he
  | cons x rest ih =>
    rw [List.map_cons, List.nodup_cons] at hnd
    rcases List.mem_cons.mp he with rfl | he2
    · rw [List.find?_cons_of_pos _ (by simp)]
    · have hne : x.name ≠ e.name := by
        intro hc
        exact hnd.1 (by
          rw [hc]
          exact List.mem_map_of_mem _ he2)
      rw [List.find?_cons_of_neg _ (by simp [hne])]
      exact ih hnd.2 he2

theorem sortedChildren_sorted (cs : List FsEntry) :
    List.Pairwise (fun a b => childLE a b = true) (sortedChildren cs) := by
  unfold sortedChildren
  letI : IsTotal FsEntry (fun a b => childLE a b = true) :=
    ⟨fun a b => pairLE_total (childKey a) (childKey b)⟩
  letI : IsTrans FsEntry (fun a b => childLE a b = true) :=
    ⟨fun a b c h1 h2 => pairLE_trans h1 h2⟩
  exact List.sorted_insertionSort _ cs

theorem sortedChildren_pairwise_lt (cs : List FsEntry)
    (hnd : (cs.map (fun e => pyLower e.name)).Nodup) :
    List.Pairwise (fun a b => pairLT (childKey a) (childKey b) = true)
      (sortedChildren cs) := by
  have hsort := sortedChildren_sorted cs
  have hperm : (sortedChildren cs).Perm cs := List.perm_insertionSort _ _
  have hnd2 : ((sortedChildren cs).map (fun e => pyLower e.name)).Nodup :=
    ((hperm.map _).nodup_iff).mpr hnd
  have hpw : List.Pairwise (fun a b => pyLower a.name ≠ pyLower b.name)
      (sortedChildren cs) := by
    have := hnd2
    rw [List.Nodup, List.pairwise_map] at this
    exact this
  refine (hsort.and hpw).imp ?_
  rintro a b ⟨h1, h2⟩
  unfold childLE at h1
  rcases (pairLE_iff _ _).mp h1 with h | h
  · exact h
  · exfalso
    exact h2 (congrArg Prod.snd h)

theorem findEntry_cons_cons (cs : List FsEntry) (n a : String)
    (q : List String) :
    findEntry cs (n :: a :: q) =
      (match cs.find? (fun e => e.name == n) with
       | some (.dir _ cs2) => findEntry cs2 (a :: q)
       | _ => none) := rfl

theorem find_name_eq {cs : List FsEntry} {e : FsEntry} {n : String}
    (hnd : (cs.map (fun x => pyLower x.name)).Nodup) (he : e ∈ cs)
    (hn : e.name = n) :
    cs.find? (fun x => x.name == n) = some e := by
  subst hn
  exact find_eq_of_nodup hnd he

theorem res_push {root cs : List FsEntry} {pre : List String} {nm : String}
    {cs2 : List FsEntry}
    (hres : ∀ q, q ≠ [] → findEntry root (pre ++ q) = findEntry cs q)
    (hnd : (cs.map (fun x => pyLower x.name)).Nodup)
    (he : FsEntry.dir nm cs2 ∈ cs) :
    ∀ q, q ≠ [] → findEntry root ((pre ++ [nm]) ++ q) = findEntry cs2 q := by
  intro q hq
  rw [List.append_assoc]
  rw [hres ([nm] ++ q) (by simp)]
  cases q with
  | nil => exact absurd rfl hq
  | cons a q2 =>
    rw [List.singleton_append, findEntry_cons_cons]
    rw [find_name_eq hnd he (show (FsEntry.dir nm cs2).name = nm from rfl)]

theorem isFileAt_of_res {root cs : List FsEntry} {pre : List String}
    {e : FsEntry} {n : String}
    (hres : ∀ q, q ≠ [] → findEntry root (pre ++ q) = findEntry cs q)
    (hnd : (cs.map (fun x => pyLower x.name)).Nodup) (he : e ∈ cs)
    (hn : e.name = n) :
    isFileAt root (pre ++ [n]) = e.isFile := by
  unfold isFileAt
  rw [hres [n] (by simp)]
  rw [show findEntry cs [n] = cs.find? (fun x => x.name == n) from rfl]
  rw [find_name_eq hnd he hn]

theorem dfs_mem_member (pre : List String) (l : List FsEntry) :
    ∀ v ∈ dfsFiles pre l, ∃ e ∈ l, v ∈ dfsFiles pre [e] := by
  induction l with
  | nil => intro v hv; rw [dfsFiles_nil] at hv; cases hv
  | cons e rest ih =>
    intro v hv
    rw [dfsFiles_cons] at hv
    rcases List.mem_append.mp hv with h | h
    · refine ⟨e, List.mem_cons_self _ _, ?_⟩
      rw [dfsFiles_cons, dfsFiles_nil, List.append_nil]
      exact h
    · obtain ⟨e2, he2, hb⟩ := ih v h
      exact ⟨e2, List.mem_cons_of_mem _ he2, hb⟩

theorem key_head {root cs : List FsEntry} {pre : List String} {e : FsEntry}
    (hres : ∀ q, q ≠ [] → findEntry root (pre ++ q) = findEntry cs q)
    (hnd : (cs.map (fun x => pyLower x.name)).Nodup) (he : e ∈ cs) :
    ∀ u ∈ dfsFiles pre [e],
      ∃ t, get_path_sort_key root u =
        get_path_sort_key_go root [] pre ++ (childKey e :: t) := by
  intro u hu
  rw [dfsFiles_cons, dfsFiles_nil, List.append_nil] at hu
  cases e with
  | file n =>
    simp only [List.mem_singleton] at hu
    subst hu
    refine ⟨[], ?_⟩
    unfold get_path_sort_key
    have h2 := sort_key_go_append root [] pre [n]
    rw [List.nil_append] at h2
    rw [h2]
    congr 1
    rw [get_path_sort_key_go, get_path_sort_key_go]
    rw [isFileAt_of_res hres hnd he (show (FsEntry.file n).name = n from rfl)]
    rfl
  | dir nm cs2 =>
    simp only at hu
    obtain ⟨q, hqne, rfl⟩ := dfsFiles_extends _ _ u hu
    refine ⟨get_path_sort_key_go root (pre ++ [nm]) q, ?_⟩
    unfold get_path_sort_key
    rw [show (pre ++ [nm]) ++ q = pre ++ ([nm] ++ q) from by
      rw [List.append_assoc]]
    have h2 := sort_key_go_append root [] pre ([nm] ++ q)
    rw [List.nil_append] at h2
    rw [h2]
    congr 1
    rw [show ([nm] ++ q : List String) = nm :: q from rfl, get_path_sort_key_go]
    rw [isFileAt_of_res hres hnd he (show (FsEntry.dir nm cs2).name = nm from rfl)]
    rfl

theorem dfsFiles_pairwise_keyLT (root : List FsEntry) :
    ∀ (n : Nat) (cs : List FsEntry), sizeOf cs ≤ n →
      (cs.map (fun e => pyLower e.name)).Nodup →
      wellEntries cs = true →
      ∀ pre : List String,
        (∀ q, q ≠ [] → findEntry root (pre ++ q) = findEntry cs q) →
        List.Pairwise
          (fun u v => keyLT (get_path_sort_key root u)
            (get_path_sort_key root v) = true)
          (dfsFiles pre (sortedChildren cs)) := by
  intro n
  induction n using Nat.strong_induction_on with
  | _ n ih =>
    intro cs hsz hnd hwl pre hres
    have hpwlt := sortedChildren_pairwise_lt cs hnd
    have hmem0 : ∀ e ∈ sortedChildren cs, e ∈ cs := fun e he =>
      (List.perm_insertionSort _ cs).subset he
    have inner : ∀ l : List FsEntry, (∀ e ∈ l, e ∈ cs) →
        List.Pairwise (fun a b => pairLT (childKey a) (childKey b) = true) l →
        List.Pairwise
          (fun u v => keyLT (get_path_sort_key root u)
            (get_path_sort_key root v) = true)
          (dfsFiles pre l) := by
      intro l
      induction l with
      | nil =>
        intro _ _
        rw [dfsFiles_nil]
        exact List.Pairwise.nil
      | cons e rest ihl =>
        intro hmem hpw
        rw [dfsFiles_cons]
        rw [List.pairwise_append]
        obtain ⟨hpw1, hpw2⟩ := List.pairwise_cons.mp hpw
        refine ⟨?_, ihl (fun x hx => hmem x (List.mem_cons_of_mem _ hx)) hpw2,
          ?_⟩
        · cases e with
          | file n2 => simp
          | dir nm cs2 =>
            have he : FsEntry.dir nm cs2 ∈ cs := hmem _ (List.mem_cons_self _ _)
            have hwe : wellEntry (FsEntry.dir nm cs2) = true :=
              wellEntries_mem hwl he
            rw [wellEntry, Bool.and_eq_true, decide_eq_true_eq] at hwe
            have hszlt : sizeOf cs2 < n := by
              have h1 : sizeOf (FsEntry.dir nm cs2) < sizeOf cs :=
                List.sizeOf_lt_of_mem he
              have h2 : sizeOf cs2 < sizeOf (FsEntry.dir nm cs2) := by
                simp
              omega
            exact ih (sizeOf cs2) hszlt cs2 le_rfl hwe.1 hwe.2 (pre ++ [nm])
              (res_push hres hnd he)
        · intro u hu v hv
          have hub : u ∈ dfsFiles pre [e] := by
            rw [dfsFiles_cons, dfsFiles_nil, List.append_nil]
            exact hu
          obtain ⟨e2, he2, hvb⟩ := dfs_mem_member pre rest v hv
          obtain ⟨t1, hk1⟩ :=
            key_head hres hnd (hmem e (List.mem_cons_self _ _)) u hub
          obtain ⟨t2, hk2⟩ :=
            key_head hres hnd (hmem e2 (List.mem_cons_of_mem _ he2)) v hvb
          rw [hk1, hk2, keyLT_append_common, keyLT_cons]
          simp [hpw1 e2 he2]
    exact inner (sortedChildren cs) hmem0 hpwlt

/-- The spec-side depth-first file order is strictly increasing in the
`get_path_sort_key` order, for every well-formed tree. -/
theorem treeFileOrder_pairwise (root : List FsEntry) (hw : wellFS root = true) :
    List.Pairwise
      (fun u v => keyLT (get_path_sort_key root u)
        (get_path_sort_key root v) = true)
      (treeFileOrder root) := by
  rw [wellFS, Bool.and_eq_true, decide_eq_true_eq] at hw
  unfold treeFileOrder
  exact dfsFiles_pairwise_keyLT root (sizeOf root) root le_rfl hw.1 hw.2 []
    (fun q hq => by rw [List.nil_append])

theorem strict_sorted_perm_eq (key : List String → List (Bool × String)) :
    ∀ {l1 l2 : List (List String)}, l1.Perm l2 →
      List.Pairwise (fun u v => keyLT (key u) (key v) = true) l1 →
      List.Pairwise (fun u v => keyLE (key u) (key v) = true) l2 →
      l1 = l2 := by
  intro l1
  induction l1 with
  | nil =>
    intro l2 hperm _ _
    exact (hperm.symm.eq_nil).symm ▸ rfl
  | cons a t1 ih =>
    intro l2 hperm hpw1 hpw2
    cases l2 with
    | nil => simp at hperm
    | cons b t2 =>
      have hab : a = b := by
        by_contra hne
        have hbmem : b ∈ a :: t1 := hperm.symm.subset (List.mem_cons_self _ _)
        have hamem : a ∈ b :: t2 := hperm.subset (List.mem_cons_self _ _)
        have hb1 : b ∈ t1 := by
          rcases List.mem_cons.mp hbmem with h | h
          · exact absurd h.symm hne
          · exact h
        have ha2 : a ∈ t2 := by
          rcases List.mem_cons.mp hamem with h | h
          · exact absurd h hne
          · exact h
        have h1 : keyLT (key a) (key b) = true :=
          (List.pairwise_cons.mp hpw1).1 b hb1
        have h2 : keyLE (key b) (key a) = true :=
          (List.pairwise_cons.mp hpw2).1 a ha2
        rcases (keyLE_iff _ _).mp h2 with hlt | heq
        · rw [keyLT_asymm h1] at hlt
          cases hlt
        · rw [heq] at h1
          rw [keyLT_irrefl] at h1
          cases h1
      subst hab
      rw [ih hperm.cons_inv (List.Pairwise.of_cons hpw1)
        (List.Pairwise.of_cons hpw2)]

/-- C2, counterexample: with two sibling directories whose names differ
only in case (`b` and `B`), the tree renders `b/z` before `B/a` (stable
sort keeps the filesystem order of the equal-keyed siblings), but
`sort_files`, fed exactly those two rendered files, breaks the tie one
level deeper and puts `B/a` first — the flat list and the tree text
disagree on the relative order of entries sharing a common ancestor. -/
theorem C2_cx :
    treeFileOrder [.dir "b" [.file "z"], .dir "B" [.file "a"]] =
      [["b", "z"], ["B", "a"]] ∧
    sort_files [.dir "b" [.file "z"], .dir "B" [.file "a"]]
        [["b", "z"], ["B", "a"]] = [["B", "a"], ["b", "z"]] ∧
    generate_directory_tree [] [.dir "b" [.file "z"], .dir "B" [.file "a"]]
        none "" = "├── b\n│   └── z\n└── B\n    └── a" := by
  refine ⟨?_, ?_, ?_⟩
  · simp +decide [treeFileOrder, dfsFiles_cons, dfsFiles_nil, sortedChildren,
      List.insertionSort, List.orderedInsert, childLE, childKey, pairLE,
      pairLT, FsEntry.isFile, FsEntry.name, pyLower, lowerChar]
  · simp +decide [sort_files, List.insertionSort, List.orderedInsert,
      get_path_sort_key, get_path_sort_key_go, isFileAt, findEntry, keyLE,
      keyLT, pairLT, pyLower, lowerChar, FsEntry.isFile, FsEntry.name]
  · simp +decide [generate_directory_tree, genTreeList_cons, genTreeList_nil,
      sortedChildren, List.insertionSort, List.orderedInsert, childLE,
      childKey, pairLE, pairLT, FsEntry.isFile, FsEntry.name, pyLower,
      lowerChar, joinNL]

/-- C2, amended: on a well-formed tree (inside every directory the
lowercased sibling names are distinct — rules out the case-colliding
counterexample), `sort_files` reproduces the tree-rendering order
exactly: any collection of files listed in tree order (`s`, a sublist of
the depth-first traversal `treeFileOrder`, of which the rendered file
entries are one instance by `treeEntries_files_sublist`), handed to
`sort_files` in any input order, comes back in exactly the order the tree
renders it. -/
theorem C2_sorted_matches_tree (root : List FsEntry) (hw : wellFS root = true)
    (s files : List (List String))
    (hs : List.Sublist s (treeFileOrder root)) (hp : files.Perm s) :
    sort_files root files = s := by
  have hpw1 : List.Pairwise
      (fun u v => keyLT (get_path_sort_key root u)
        (get_path_sort_key root v) = true) s :=
    (treeFileOrder_pairwise root hw).sublist hs
  have hperm : (sort_files root files).Perm s :=
    (List.perm_insertionSort _ _).trans hp
  have hpw2 : List.Pairwise
      (fun u v => keyLE (get_path_sort_key root u)
        (get_path_sort_key root v) = true) (sort_files root files) := by
    unfold sort_files
    letI : IsTotal (List String)
        (fun p q => keyLE (get_path_sort_key root p)
          (get_path_sort_key root q) = true) :=
      ⟨fun p q => keyLE_total _ _⟩
    letI : IsTrans (List String)
        (fun p q => keyLE (get_path_sort_key root p)
          (get_path_sort_key root q) = true) :=
      ⟨fun p q r h1 h2 => keyLE_trans h1 h2⟩
    exact List.sorted_insertionSort _ files
  exact (strict_sorted_perm_eq (get_path_sort_key root) hperm.symm hpw1
    hpw2).symm

/-- Witness for C2's amended theorem at a concrete tree: the rendered
order is `src/a.py`, `src/B.py`, `top.md`, and sorting that set handed
over in reverse order restores exactly the tree order. -/
theorem C2_sorted_matches_tree_w :
    sort_files [.dir "src" [.file "B.py", .file "a.py"], .file "top.md"]
        ([["src", "a.py"], ["src", "B.py"], ["top.md"]].reverse) =
      [["src", "a.py"], ["src", "B.py"], ["top.md"]] := by
  refine C2_sorted_matches_tree _ ?_ _ _ ?_ (List.reverse_perm _)
  · simp +decide [wellFS, wellEntry, wellEntries, pyLower, lowerChar,
      FsEntry.name]
  · have h : treeFileOrder
        [.dir "src" [.file "B.py", .file "a.py"], .file "top.md"] =
        [["src", "a.py"], ["src", "B.py"], ["top.md"]] := by
      simp +decide [treeFileOrder, dfsFiles_cons, dfsFiles_nil, sortedChildren,
        List.insertionSort, List.orderedInsert, childLE, childKey, pairLE,
        pairLT, FsEntry.isFile, FsEntry.name, pyLower, lowerChar]
    rw [h]
